import Mathlib

/-!
Verification of the command-line tokenizer and argument-extraction layer of
`PowerEditor/src/winmain.cpp` (Notepad++).

The C++ tokenizer `parseCommandLine` works on a mutable copy of the raw
command line: it walks the buffer left to right, zaps whitespace and the
structural quotes of the bare filename-quote context to NUL terminators, and
pushes pointers into the buffer; each emitted token is the character run from
its pushed pointer up to the first NUL written into the buffer.  The shallow
embedding below replaces that pointer/NUL representation by an equivalent
accumulating one: `done` holds the tokens whose run has already been ended by
a NUL write, and `pending` holds the characters accumulated so far by the most
recently pushed token whose run has not yet been ended.  A NUL write at the
current position ends the pending run (the zapped character is dropped, as in
the C++ buffer); a character the C++ loop leaves in place extends the pending
run (it lies inside the last pushed token's extent); pushing a pointer starts
a fresh pending run.  The single look-behind read `cmdLinePtr[i-1] == '='`
(line 114) is mirrored by the `prev` field, which is `none` at the start of
the string and after the previous position was zapped to NUL, exactly the
cases where the C++ read cannot yield `'='`.
-/

set_option maxHeartbeats 1000000

namespace Npp

/-- Whitespace recognised by the scanner: space and tab (winmain.cpp lines
143-144). -/
def isWS (c : Char) : Bool := c == ' ' || c == '\t'

/-- Scanner state of `parseCommandLine` (winmain.cpp lines 95-107): the three
booleans and the `-z` counter `zArg` are the C++ locals of the same names;
`done`/`pending` together represent the `args` vector of pointers into the
zapped buffer (see the file comment), and `prev` is the buffer character just
before the current position (`none` at the start or when it was zapped). -/
structure ScanState where
  done : List String
  pending : Option (List Char)
  isBetweenFileNameQuotes : Bool
  isStringInArg : Bool
  isInWhiteSpace : Bool
  prev : Option Char
  zArg : Nat
deriving Repr, DecidableEq

/-- Tokens contributed by the pending run when a NUL terminator ends it (or
when the end of the input is reached). -/
def pendList : Option (List Char) → List String
  | none => []
  | some p => [String.mk p]

/-- One step of the scanner of `parseCommandLine` (winmain.cpp lines 108-171)
on a character that does not trigger the `shouldBeTerminated` early exit.
The four quote cases are lines 114-139, the whitespace case lines 143-156,
and the default case lines 158-170. -/
def stepChar (st : ScanState) (c : Char) : ScanState :=
  if c = '\x22' then
    if !st.isStringInArg && !st.isBetweenFileNameQuotes && st.prev = some '=' then
      -- line 114: open the equals-quoted string; the quote is not zapped,
      -- so it stays inside the pending token's extent
      { st with isStringInArg := true,
                pending := st.pending.map (fun p => p ++ [c]),
                isInWhiteSpace := false, prev := some c }
    else if st.isStringInArg then
      -- line 118: close the equals-quoted string; again not zapped
      { st with isStringInArg := false,
                pending := st.pending.map (fun p => p ++ [c]),
                isInWhiteSpace := false, prev := some c }
    else if !st.isBetweenFileNameQuotes then
      -- line 122: start a quoted filename: push `cmdLinePtr + i + 1` and zap
      -- position `i`, which ends the previous pending run
      { st with done := st.done ++ pendList st.pending,
                pending := some [],
                isBetweenFileNameQuotes := true,
                zArg := if st.zArg = 1 then st.zArg + 1 else st.zArg,
                isInWhiteSpace := false, prev := none }
    else
      -- line 133: close the quoted filename: zap position `i`
      { st with done := st.done ++ pendList st.pending,
                pending := none,
                isBetweenFileNameQuotes := false,
                isInWhiteSpace := false, prev := none }
  else if isWS c then
    if !st.isBetweenFileNameQuotes && !st.isStringInArg then
      -- lines 147-154: zap the whitespace, then bump `zArg` if the last
      -- pushed argument now reads exactly "-z"
      let done' := st.done ++ pendList st.pending
      { st with done := done',
                pending := none,
                zArg := if done'.getLast? = some "-z" then st.zArg + 1 else st.zArg,
                isInWhiteSpace := true, prev := none }
    else
      -- whitespace inside a quoting context is kept in the token
      { st with isInWhiteSpace := true,
                pending := st.pending.map (fun p => p ++ [c]), prev := some c }
  else
    if !st.isBetweenFileNameQuotes && !st.isStringInArg && st.isInWhiteSpace then
      -- line 160: beginning of a word: push `cmdLinePtr + i`
      { st with done := st.done ++ pendList st.pending,
                pending := some [c],
                isInWhiteSpace := false, prev := some c }
    else
      -- any other character stays inside the current extent
      { st with pending := st.pending.map (fun p => p ++ [c]), prev := some c }

/-- Condition under which `parseCommandLine` sets `shouldBeTerminated`
(winmain.cpp lines 163-166): a default character beginning a word while
`zArg == 2`. -/
def captureCond (st : ScanState) (c : Char) : Bool :=
  !(c == '\x22') && !isWS c &&
  !st.isBetweenFileNameQuotes && !st.isStringInArg && st.isInWhiteSpace &&
  st.zArg == 2

/-- The scanner loop of `parseCommandLine` (winmain.cpp lines 108-172).  When
`captureCond` holds the loop stops and the word pushed at the current position
runs to the end of the raw string (nothing after it is ever zapped); otherwise
the state is advanced by `stepChar`.  At the end of the input the surviving
pending run becomes the last token. -/
def scanAux : ScanState → List Char → List String
  | st, [] => st.done ++ pendList st.pending
  | st, c :: rest =>
    if captureCond st c then st.done ++ pendList st.pending ++ [String.mk (c :: rest)]
    else scanAux (stepChar st c) rest

/-- Initial scanner state (winmain.cpp lines 95-102). -/
def initState : ScanState :=
  { done := [], pending := none,
    isBetweenFileNameQuotes := false, isStringInArg := false,
    isInWhiteSpace := true, prev := none, zArg := 0 }

/-- Embedding of `parseCommandLine` (winmain.cpp lines 85-175): split the raw
command line into the `paramVector` of tokens. -/
def parseCommandLine (commandLine : String) : List String :=
  scanAux initState commandLine.data

/-- States visited by the scanner loop, in order, for reasoning about the
evolution of `zArg`; the recursion mirrors `scanAux` exactly, stopping at the
state in which `shouldBeTerminated` is set. -/
def scanStates : ScanState → List Char → List ScanState
  | st, [] => [st]
  | st, c :: rest =>
    if captureCond st c then [st]
    else st :: scanStates (stepChar st c) rest

/-- Embedding of `convertParamsToNotepadStyle` (winmain.cpp lines 179-188):
every token equal to `/p` or `/P` is assigned `-quickPrint` in place. -/
def convertParamsToNotepadStyle (params : List String) : List String :=
  params.map (fun t => if t = "/p" || t = "/P" then "-quickPrint" else t)

/-- Embedding of `isInList` (winmain.cpp lines 190-201) with the default
`eraseArg = true`: scan for the first token equal to `token2Find`, erase it
and return `true`; the second component is the updated vector. -/
def isInList (token2Find : String) : List String → Bool × List String
  | [] => (false, [])
  | p :: ps =>
    if p = token2Find then (true, ps)
    else
      let r := isInList token2Find ps
      (r.1, p :: r.2)

/-- Matching condition of `getParamVal` (winmain.cpp line 211): first
character `'-'`, length at least 2, second character equal to `c`. -/
def matchFlag (c : Char) (t : String) : Bool :=
  match t.data with
  | x :: y :: _ => x == '-' && y == c
  | _ => false

/-- Embedding of `getParamVal` (winmain.cpp lines 203-219): find the first
token matching `matchFlag`, return the tail after the flag letter as value
and erase the token.  The C++ function writes `value = TEXT("")` up front and
returns `false` when nothing matches, represented here by `(false, "", params)`. -/
def getParamVal (c : Char) : List String → Bool × String × List String
  | [] => (false, "", [])
  | t :: ps =>
    if matchFlag c t then (true, String.mk (t.data.drop 2), ps)
    else
      let r := getParamVal c ps
      (r.1, r.2.1, t :: r.2.2)

/-- Embedding of `getParamValFromString` (winmain.cpp lines 221-239): find the
first token of which `str` is a prefix (`tokenStr.find(str) == 0`), return the
remainder after the prefix and erase the token. -/
def getParamValFromString (str : String) : List String → Bool × String × List String
  | [] => (false, "", [])
  | t :: ps =>
    if str.data.isPrefixOf t.data then (true, String.mk (t.data.drop str.data.length), ps)
    else
      let r := getParamValFromString str ps
      (r.1, r.2.1, t :: r.2.2)

/-- Characters skipped by the C runtime's `isspace` in `_ttoi64` and
`std::stoi`. -/
def isSpaceLike (c : Char) : Bool :=
  c == ' ' || c == '\t' || c == '\n' || c == '\x0b' || c == '\x0c' || c == '\r'

/-- Value of a list of decimal digits. -/
def digitsVal (ds : List Char) : Int :=
  ds.foldl (fun a d => a * 10 + (Int.ofNat (d.toNat - '0'.toNat))) 0

/-- Embedding of the C runtime conversion `_ttoi64` used by
`getNumberFromParam` (winmain.cpp line 267): skip leading whitespace, read an
optional sign and then a run of decimal digits; no digits yields `0`. -/
def ttoi64 (s : String) : Int :=
  let cs := s.data.dropWhile isSpaceLike
  match cs with
  | '-' :: rest => -(digitsVal (rest.takeWhile Char.isDigit))
  | '+' :: rest => digitsVal (rest.takeWhile Char.isDigit)
  | rest => digitsVal (rest.takeWhile Char.isDigit)

/-- Embedding of `std::stoi(s, 0)` as used at winmain.cpp line 307: `none`
models the thrown exception, either `std::invalid_argument` when no digits
can be read after optional whitespace and sign, or `std::out_of_range` when
the value does not fit in `int`. -/
def stoi (s : String) : Option Int :=
  let cs := s.data.dropWhile isSpaceLike
  let signed : Bool × List Char :=
    match cs with
    | '-' :: rest => (true, rest)
    | '+' :: rest => (false, rest)
    | rest => (false, rest)
  let ds := signed.2.takeWhile Char.isDigit
  if ds = [] then none
  else
    let v : Int := if signed.1 then -(digitsVal ds) else digitsVal ds
    if v < -2147483648 || 2147483647 < v then none else some v

/-- Embedding of `getNumberFromParam` (winmain.cpp lines 258-268): the first
component is the `isParamePresent` out-parameter, the second the returned
number (`-1` when absent), the third the updated vector. -/
def getNumberFromParam (paramName : Char) (params : List String) :
    Bool × Int × List String :=
  let r := getParamVal paramName params
  if r.1 then (true, ttoi64 r.2.1, r.2.2)
  else (false, -1, r.2.2)

/-- Embedding of `getGhostTypingSpeedFromParam` (winmain.cpp lines 301-312).
`Except.error ()` models the exception thrown by `std::stoi` escaping the
function; otherwise the result is the returned speed (`-1` for absent or out
of range) together with the updated vector. -/
def getGhostTypingSpeedFromParam (params : List String) :
    Except Unit (Int × List String) :=
  let r := getParamValFromString "-qSpeed" params
  if r.1 then
    match stoi r.2.1 with
    | none => Except.error ()
    | some speed =>
      if speed ≤ 0 || speed > 3 then Except.ok (-1, r.2.2)
      else Except.ok (speed, r.2.2)
  else Except.ok (-1, r.2.2)

/-- Embedding of `stripIgnoredParams` (winmain.cpp lines 357-375) as the
iterator loop it is written as: `done` holds the elements before the iterator;
on a `-z` the element after it (if any) is erased together with the `-z`
itself and the iterator resumes after the erased pair. -/
def stripLoop : List String → List String → List String
  | done, [] => done
  | done, x :: [] => if x = "-z" then done else done ++ [x]
  | done, x :: y :: rest =>
    if x = "-z" then stripLoop done rest
    else stripLoop (done ++ [x]) (y :: rest)

/-- Embedding of `stripIgnoredParams` (winmain.cpp lines 357-375). -/
def stripIgnoredParams (params : List String) : List String :=
  stripLoop [] params

/-- Mirror of the specification's contract for the SpecialModeStripper
(spec section 4.4), written from the spec's words: remove each token exactly
equal to the ignore-marker together with the single token immediately
following it when one exists, then continue scanning from the next remaining
token; all other tokens are preserved in order. -/
def stripIgnoredParamsSpec : List String → List String
  | [] => []
  | x :: [] => if x = "-z" then [] else [x]
  | x :: y :: rest =>
    if x = "-z" then stripIgnoredParamsSpec rest
    else x :: stripIgnoredParamsSpec (y :: rest)

/-- Mirror of the claim's splitting operation (spec section 8, first testable
property): cut the character list at maximal runs of space and tab, dropping
the separators; the empty input yields the empty sequence.  The recursion is
structural; `wsSplitChars_cons_of_neg` below restates it in the maximal-run
form used by the claim. -/
def consTok (c : Char) : List String → List String
  | [] => [String.mk [c]]
  | t :: ts => String.mk (c :: t.data) :: ts

def wsSplitChars : List Char → List String
  | [] => []
  | c :: cs =>
    if isWS c then wsSplitChars cs
    else
      match cs.head? with
      | none => [String.mk [c]]
      | some c2 =>
        if isWS c2 then String.mk [c] :: wsSplitChars cs
        else consTok c (wsSplitChars cs)

/-- Splitting a raw string on maximal runs of space and tab. -/
def wsSplit (s : String) : List String := wsSplitChars s.data

/-- Decides that no quote character directly follows an equals sign, the
condition under which the tokenizer state `isStringInArg` can never become
true; the first argument plays the role of the character before the list. -/
def noEqQuote : Option Char → List Char → Bool
  | _, [] => true
  | p, c :: rest => !(p == some '=' && c == '\x22') && noEqQuote (some c) rest

/-! ## Helper lemmas about the extraction operations -/

theorem isInList_not_found (tok : String) (l : List String)
    (h : ∀ x ∈ l, x ≠ tok) : isInList tok l = (false, l) := by
  induction l with
  | nil => rfl
  | cons p ps ih =>
    have hp : p ≠ tok := h p (by simp)
    simp [isInList, hp, ih (fun x hx => h x (by simp [hx]))]

theorem isInList_found (tok : String) (l1 l2 : List String)
    (h : ∀ x ∈ l1, x ≠ tok) :
    isInList tok (l1 ++ tok :: l2) = (true, l1 ++ l2) := by
  induction l1 with
  | nil => simp [isInList]
  | cons p ps ih =>
    have hp : p ≠ tok := h p (by simp)
    simp [isInList, hp, ih (fun x hx => h x (by simp [hx]))]

theorem getParamVal_not_found (c : Char) (l : List String)
    (h : ∀ x ∈ l, matchFlag c x = false) : getParamVal c l = (false, "", l) := by
  induction l with
  | nil => rfl
  | cons t ps ih =>
    have ht := h t (by simp)
    simp [getParamVal, ht, ih (fun x hx => h x (by simp [hx]))]

theorem getParamVal_found (c : Char) (t : String) (l1 l2 : List String)
    (h : ∀ x ∈ l1, matchFlag c x = false) (ht : matchFlag c t = true) :
    getParamVal c (l1 ++ t :: l2) = (true, String.mk (t.data.drop 2), l1 ++ l2) := by
  induction l1 with
  | nil => simp [getParamVal, ht]
  | cons p ps ih =>
    have hp := h p (by simp)
    simp [getParamVal, hp, ih (fun x hx => h x (by simp [hx]))]

theorem getParamValFromString_not_found (str : String) (l : List String)
    (h : ∀ x ∈ l, str.data.isPrefixOf x.data = false) :
    getParamValFromString str l = (false, "", l) := by
  induction l with
  | nil => rfl
  | cons t ps ih =>
    have ht := h t (by simp)
    simp [getParamValFromString, ht, ih (fun x hx => h x (by simp [hx]))]

theorem getParamValFromString_found (str t : String) (l1 l2 : List String)
    (h : ∀ x ∈ l1, str.data.isPrefixOf x.data = false)
    (ht : str.data.isPrefixOf t.data = true) :
    getParamValFromString str (l1 ++ t :: l2) =
      (true, String.mk (t.data.drop str.data.length), l1 ++ l2) := by
  induction l1 with
  | nil => simp [getParamValFromString, ht]
  | cons p ps ih =>
    have hp := h p (by simp)
    simp [getParamValFromString, hp, ih (fun x hx => h x (by simp [hx]))]

theorem getParamValFromString_of_fst_false (str : String) (l : List String)
    (h : (getParamValFromString str l).1 = false) :
    getParamValFromString str l = (false, "", l) := by
  induction l with
  | nil => rfl
  | cons t ps ih =>
    by_cases ht : str.data.isPrefixOf t.data
    · simp [getParamValFromString, ht] at h
    · simp only [getParamValFromString, ht, if_neg, Bool.false_eq_true,
        if_false] at h ⊢
      simp [ih h]

theorem stripLoop_eq_spec : ∀ l done, stripLoop done l = done ++ stripIgnoredParamsSpec l
  | [], done => by simp [stripLoop, stripIgnoredParamsSpec]
  | [x], done => by
    by_cases hx : x = "-z" <;> simp [stripLoop, stripIgnoredParamsSpec, hx]
  | x :: y :: rest, done => by
    by_cases hx : x = "-z"
    · simp [stripLoop, stripIgnoredParamsSpec, hx, stripLoop_eq_spec rest done]
    · simp [stripLoop, stripIgnoredParamsSpec, hx,
        stripLoop_eq_spec (y :: rest) (done ++ [x])]

theorem convert_getD (ps : List String) (i : Nat) :
    (convertParamsToNotepadStyle ps).getD i "" =
      if ps.getD i "" = "/p" ∨ ps.getD i "" = "/P" then "-quickPrint"
      else ps.getD i "" := by
  induction ps generalizing i with
  | nil => simp [convertParamsToNotepadStyle]
  | cons t ps ih =>
    cases i with
    | zero =>
      by_cases h1 : t = "/p"
      · simp [convertParamsToNotepadStyle, h1]
      · by_cases h2 : t = "/P" <;>
          simp [convertParamsToNotepadStyle, h1, h2]
    | succ j => simpa [convertParamsToNotepadStyle] using ih j

/-! ## Helper lemmas about the scanner -/

theorem scanAux_step (st : ScanState) (c : Char) (rest : List Char)
    (h : captureCond st c = false) :
    scanAux st (c :: rest) = scanAux (stepChar st c) rest := by
  simp [scanAux, h]

theorem scanAux_capture (st : ScanState) (c : Char) (rest : List Char)
    (h : captureCond st c = true) :
    scanAux st (c :: rest) =
      st.done ++ pendList st.pending ++ [String.mk (c :: rest)] := by
  simp [scanAux, h]

theorem stepChar_zArg_mono (st : ScanState) (c : Char) :
    st.zArg ≤ (stepChar st c).zArg ∧ (stepChar st c).zArg ≤ st.zArg + 1 := by
  simp only [stepChar]
  repeat' split
  all_goals simp only []
  all_goals omega

theorem scanStates_head : ∀ (cs : List Char) (st : ScanState),
    (scanStates st cs).head? = some st
  | [], st => rfl
  | c :: rest, st => by
    by_cases hcap : captureCond st c = true <;> simp [scanStates, hcap]

/-! ## Helper lemmas about whitespace splitting -/

theorem wsSplitChars_cons_of_ws (c : Char) (cs : List Char) (h : isWS c = true) :
    wsSplitChars (c :: cs) = wsSplitChars cs := by
  simp [wsSplitChars, h]

theorem wsSplitChars_cons_of_neg (cs : List Char) : ∀ c : Char, isWS c = false →
    wsSplitChars (c :: cs) =
      String.mk (c :: cs.takeWhile (fun x => !isWS x)) ::
        wsSplitChars (cs.dropWhile (fun x => !isWS x)) := by
  induction cs with
  | nil =>
    intro c h
    simp [wsSplitChars, h]
  | cons c2 cs' ih =>
    intro c h
    have hstep : wsSplitChars (c :: c2 :: cs') =
        if isWS c then wsSplitChars (c2 :: cs')
        else if isWS c2 then String.mk [c] :: wsSplitChars (c2 :: cs')
        else consTok c (wsSplitChars (c2 :: cs')) := rfl
    cases h2 : isWS c2 with
    | true =>
      rw [hstep]
      simp [h, h2, List.takeWhile_cons, List.dropWhile_cons]
    | false =>
      rw [hstep, ih c2 h2]
      simp [h, h2, consTok, List.takeWhile_cons, List.dropWhile_cons]

/-! ## The scanner on quote-free, `-z`-free input is whitespace splitting -/

theorem scan_ws_split (rest : List Char) :
    (∀ st : ScanState,
      st.isBetweenFileNameQuotes = false → st.isStringInArg = false →
      st.isInWhiteSpace = true → st.pending = none → st.zArg = 0 →
      (∀ c ∈ rest, c ≠ '\x22') →
      "-z" ∉ st.done → "-z" ∉ wsSplitChars rest →
      scanAux st rest = st.done ++ wsSplitChars rest) ∧
    (∀ (st : ScanState) (p : List Char),
      st.isBetweenFileNameQuotes = false → st.isStringInArg = false →
      st.isInWhiteSpace = false → st.pending = some p → st.zArg = 0 →
      (∀ c ∈ rest, c ≠ '\x22') →
      "-z" ∉ st.done →
      String.mk (p ++ rest.takeWhile (fun x => !isWS x)) ≠ "-z" →
      "-z" ∉ wsSplitChars (rest.dropWhile (fun x => !isWS x)) →
      scanAux st rest = st.done ++
        String.mk (p ++ rest.takeWhile (fun x => !isWS x)) ::
          wsSplitChars (rest.dropWhile (fun x => !isWS x))) := by
  induction rest with
  | nil =>
    constructor
    · intro st hb hs hw hp hz hq hd hsp
      simp [scanAux, pendList, hp, wsSplitChars]
    · intro st p hb hs hw hp hz hq hd ht hsp
      simp [scanAux, pendList, hp, wsSplitChars]
  | cons c rest ih =>
    constructor
    · intro st hb hs hw hp hz hq hd hsp
      have hc : c ≠ '\x22' := hq c (by simp)
      rw [scanAux_step st c rest (by simp [captureCond, hz])]
      cases hws : isWS c with
      | true =>
        have hnz : st.done.getLast? ≠ some "-z" :=
          fun hlast => hd (List.mem_of_mem_getLast? hlast)
        have hst : stepChar st c =
            { st with pending := none, isInWhiteSpace := true, prev := none } := by
          simp [stepChar, hc, hws, hb, hs, hp, pendList, hnz]
        rw [hst]
        rw [ih.1 _ (by simp [hb]) (by simp [hs]) (by simp) (by simp) (by simp [hz])
          (fun x hx => hq x (by simp [hx])) (by simpa using hd)
          (by rwa [wsSplitChars_cons_of_ws c rest hws] at hsp)]
        rw [wsSplitChars_cons_of_ws c rest hws]
      | false =>
        have hst : stepChar st c =
            { st with pending := some [c], isInWhiteSpace := false, prev := some c } := by
          simp [stepChar, hc, hws, hb, hs, hw, hp, pendList]
        rw [hst]
        rw [wsSplitChars_cons_of_neg rest c hws] at hsp
        simp only [List.mem_cons, not_or] at hsp
        rw [ih.2 _ [c] (by simp [hb]) (by simp [hs]) (by simp) (by simp)
          (by simp [hz]) (fun x hx => hq x (by simp [hx])) (by simpa using hd)
          (by simpa using fun h => hsp.1 h.symm) hsp.2]
        rw [wsSplitChars_cons_of_neg rest c hws]
        simp
    · intro st p hb hs hw hp hz hq hd ht hsp
      have hc : c ≠ '\x22' := hq c (by simp)
      rw [scanAux_step st c rest (by simp [captureCond, hz])]
      cases hws : isWS c with
      | true =>
        have htk : (c :: rest).takeWhile (fun x => !isWS x) = [] := by
          simp [List.takeWhile_cons, hws]
        have hdr : (c :: rest).dropWhile (fun x => !isWS x) = c :: rest := by
          simp [List.dropWhile_cons, hws]
        rw [htk, List.append_nil] at ht
        rw [hdr] at hsp
        have hst : stepChar st c =
            { st with done := st.done ++ [String.mk p], pending := none, isInWhiteSpace := true, prev := none } := by
          simp [stepChar, hc, hws, hb, hs, hp, pendList, List.getLast?_concat, ht]
        rw [hst]
        rw [ih.1 _ (by simp [hb]) (by simp [hs]) (by simp) (by simp) (by simp [hz])
          (fun x hx => hq x (by simp [hx]))
          (by simp only [List.mem_append, List.mem_singleton, not_or]
              exact ⟨hd, fun h => ht h.symm⟩)
          (by rwa [wsSplitChars_cons_of_ws c rest hws] at hsp)]
        rw [htk, List.append_nil, hdr, wsSplitChars_cons_of_ws c rest hws]
        simp
      | false =>
        have htk : (c :: rest).takeWhile (fun x => !isWS x) =
            c :: rest.takeWhile (fun x => !isWS x) := by
          simp [List.takeWhile_cons, hws]
        have hdr : (c :: rest).dropWhile (fun x => !isWS x) =
            rest.dropWhile (fun x => !isWS x) := by
          simp [List.dropWhile_cons, hws]
        rw [htk] at ht
        rw [hdr] at hsp
        have hst : stepChar st c =
            { st with pending := some (p ++ [c]), prev := some c } := by
          simp [stepChar, hc, hws, hw, hp]
        rw [hst]
        rw [ih.2 _ (p ++ [c]) (by simp [hb]) (by simp [hs]) (by simp [hw])
          (by simp) (by simp [hz]) (fun x hx => hq x (by simp [hx]))
          (by simpa using hd)
          (by simpa [List.append_assoc] using ht) hsp]
        rw [htk, hdr]
        simp

/-! ## Claim theorems for the extraction layer -/

/-- Claim C6: each of the four extraction operations (`isInList`,
`getParamVal`, `getParamValFromString`, `getNumberFromParam`) removes exactly
the earliest matching token when one matches, leaves every other token in its
original relative order, returns an explicit not-found result otherwise, and
a second identical call observes the shrunk sequence (concrete `-lcpp`
example from the spec). -/
theorem extraction_ops_first_match :
    (∀ tok l1 l2, (∀ x ∈ l1, x ≠ tok) →
      isInList tok (l1 ++ tok :: l2) = (true, l1 ++ l2)) ∧
    (∀ tok l, (∀ x ∈ l, x ≠ tok) → isInList tok l = (false, l)) ∧
    (∀ ch t l1 l2, (∀ x ∈ l1, matchFlag ch x = false) → matchFlag ch t = true →
      getParamVal ch (l1 ++ t :: l2) =
        (true, String.mk (t.data.drop 2), l1 ++ l2)) ∧
    (∀ ch l, (∀ x ∈ l, matchFlag ch x = false) →
      getParamVal ch l = (false, "", l)) ∧
    (∀ str t l1 l2, (∀ x ∈ l1, str.data.isPrefixOf x.data = false) →
      str.data.isPrefixOf t.data = true →
      getParamValFromString str (l1 ++ t :: l2) =
        (true, String.mk (t.data.drop str.data.length), l1 ++ l2)) ∧
    (∀ str l, (∀ x ∈ l, str.data.isPrefixOf x.data = false) →
      getParamValFromString str l = (false, "", l)) ∧
    (∀ ch t l1 l2, (∀ x ∈ l1, matchFlag ch x = false) → matchFlag ch t = true →
      getNumberFromParam ch (l1 ++ t :: l2) =
        (true, ttoi64 (String.mk (t.data.drop 2)), l1 ++ l2)) ∧
    getParamVal 'l' ["a", "-lcpp", "b"] = (true, "cpp", ["a", "b"]) ∧
    getParamVal 'l' ["a", "b"] = (false, "", ["a", "b"]) := by
  refine ⟨isInList_found, isInList_not_found, getParamVal_found,
    getParamVal_not_found, getParamValFromString_found,
    getParamValFromString_not_found, ?_, by decide, by decide⟩
  intro ch t l1 l2 h ht
  simp [getNumberFromParam, getParamVal_found ch t l1 l2 h ht]

theorem extraction_ops_first_match_witness :
    getParamVal 'x' (["aa"] ++ "-xval" :: ["bb"]) =
      (true, String.mk ("-xval".data.drop 2), ["aa"] ++ ["bb"]) :=
  extraction_ops_first_match.2.2.1 'x' "-xval" ["aa"] ["bb"]
    (by decide) (by decide)

/-- Claim C9 counterexample: on a sequence containing the exact token `-l`
but an earlier token `-lcpp` also matching the flag letter, `getParamVal`
returns the earlier value `"cpp"` (not the empty string) and leaves `-l` in
place, so the claim as stated over every sequence containing an exact
dash-letter token is false. -/
theorem dashLetter_not_first_match :
    getParamVal 'l' ["-lcpp", "-l"] = (true, "cpp", ["-l"]) ∧
    ("cpp" : String) ≠ "" := by
  exact ⟨by decide, by decide⟩

/-- Claim C9 (amended): when the earliest token matching the flag letter is
exactly a dash followed by the letter and nothing else, `getParamVal` returns
present with the empty string as value and removes that token; an all-nonmatch
sequence returns `(false, "")`, so presence-with-empty-value is
distinguishable from absence by the boolean component. -/
theorem dashLetter_earliest_empty_value (ch : Char) (l1 l2 : List String)
    (h : ∀ x ∈ l1, matchFlag ch x = false) :
    getParamVal ch (l1 ++ String.mk ['-', ch] :: l2) = (true, "", l1 ++ l2) ∧
    (∀ l, (∀ x ∈ l, matchFlag ch x = false) → getParamVal ch l = (false, "", l)) := by
  constructor
  · have ht : matchFlag ch (String.mk ['-', ch]) = true := by simp [matchFlag]
    have h2 := getParamVal_found ch (String.mk ['-', ch]) l1 l2 h ht
    simpa using h2
  · exact getParamVal_not_found ch

theorem dashLetter_earliest_empty_value_witness :
    getParamVal 'l' (["a"] ++ String.mk ['-', 'l'] :: ["b"]) =
      (true, "", ["a"] ++ ["b"]) :=
  (dashLetter_earliest_empty_value 'l' ["a"] ["b"] (by decide)).1

/-- Claim C2 counterexample: with the prefix present but an empty value, the
modelled `std::stoi` throws (`Except.error`), so the typing-speed extraction
does have an error-raising path, contrary to the claim that a parse failure
is normalized to absent. -/
theorem ghost_speed_raises_on_parse_failure :
    getGhostTypingSpeedFromParam ["-qSpeed"] = Except.error () ∧
    getGhostTypingSpeedFromParam ["-qSpeedx"] = Except.error () := by
  exact ⟨rfl, rfl⟩

/-- Claim C2 (amended): the typing-speed extraction raises no error when the
`-qSpeed` prefix is absent (absent result, sequence unchanged) or when the
value parses as an integer (values outside the closed range 1..3, including
nonpositive ones, are normalized to absent; 1, 2, 3 are returned present,
with the matched token removed in every parsed case); but when the value
fails to parse as an integer, the `std::stoi` exception propagates.  The
spec's `-qSpeed` examples with values `5` and `2` are included. -/
theorem ghost_speed_cases (params : List String) :
    ((getParamValFromString "-qSpeed" params).1 = false →
      getGhostTypingSpeedFromParam params = Except.ok (-1, params)) ∧
    ((getParamValFromString "-qSpeed" params).1 = true →
      stoi (getParamValFromString "-qSpeed" params).2.1 = none →
      getGhostTypingSpeedFromParam params = Except.error ()) ∧
    (∀ v : Int, (getParamValFromString "-qSpeed" params).1 = true →
      stoi (getParamValFromString "-qSpeed" params).2.1 = some v →
      getGhostTypingSpeedFromParam params =
        Except.ok ((if 1 ≤ v ∧ v ≤ 3 then v else -1),
          (getParamValFromString "-qSpeed" params).2.2)) ∧
    getGhostTypingSpeedFromParam ["-qSpeed5"] = Except.ok (-1, []) ∧
    getGhostTypingSpeedFromParam ["-qSpeed2"] = Except.ok (2, []) := by
  refine ⟨?_, ?_, ?_, rfl, rfl⟩
  · intro h
    have h2 := getParamValFromString_of_fst_false _ _ h
    simp [getGhostTypingSpeedFromParam, h2]
  · intro h1 h2
    simp [getGhostTypingSpeedFromParam, h1, h2]
  · intro v h1 h2
    simp only [getGhostTypingSpeedFromParam, h1, if_true, h2]
    by_cases hv : 1 ≤ v ∧ v ≤ 3
    · have hv2 : ¬ (v ≤ 0) := by omega
      have hv3 : ¬ (v > 3) := by omega
      simp [hv, hv2, hv3]
    · have hv2 : v ≤ 0 ∨ v > 3 := by omega
      rcases hv2 with hv2 | hv2 <;> simp [hv, hv2]

theorem ghost_speed_cases_witness :
    getGhostTypingSpeedFromParam ["-qSpeed2"] =
      Except.ok ((if (1 : Int) ≤ 2 ∧ (2 : Int) ≤ 3 then 2 else -1),
        (getParamValFromString "-qSpeed" ["-qSpeed2"]).2.2) :=
  (ghost_speed_cases ["-qSpeed2"]).2.2.1 2 (by decide) (by decide)

/-- Claim C7: the special-mode stripping pass removes each token exactly equal
to `-z` together with the single token immediately following it when one
exists (a trailing `-z` is removed alone), continues scanning from the next
remaining token, and preserves all other tokens in order — stated as
equivalence of the iterator-loop implementation with the recursive contract
from the specification, plus concrete instances (including a trailing `-z`
and an adjacent-`-z` case). -/
theorem stripIgnoredParams_correct :
    (∀ params, stripIgnoredParams params = stripIgnoredParamsSpec params) ∧
    stripIgnoredParams ["-z", "a", "b", "-z"] = ["b"] ∧
    stripIgnoredParams ["x", "-z", "y", "z"] = ["x", "z"] ∧
    stripIgnoredParams ["-z", "-z", "a"] = ["a"] := by
  refine ⟨?_, by decide, by decide, by decide⟩
  intro params
  simpa [stripIgnoredParams] using stripLoop_eq_spec params []

/-- Claim C8: the Normalizer rewrites `/p` and `/P` tokens (in particular in
first position) to `-quickPrint` as a pure in-place substitution: the token
count is unchanged, the token at every position is the original token unless
it is `/p` or `/P`, in which case it becomes `-quickPrint`; with the spec's
end-to-end example. -/
theorem convertParams_rewrite :
    (∀ ps, (convertParamsToNotepadStyle ps).length = ps.length) ∧
    (∀ ps i, (convertParamsToNotepadStyle ps).getD i "" =
      if ps.getD i "" = "/p" ∨ ps.getD i "" = "/P" then "-quickPrint"
      else ps.getD i "") ∧
    (∀ ps, convertParamsToNotepadStyle ("/p" :: ps) =
      "-quickPrint" :: convertParamsToNotepadStyle ps) ∧
    (∀ ps, convertParamsToNotepadStyle ("/P" :: ps) =
      "-quickPrint" :: convertParamsToNotepadStyle ps) ∧
    convertParamsToNotepadStyle ["/p", "report.txt"] =
      ["-quickPrint", "report.txt"] := by
  refine ⟨?_, convert_getD, ?_, ?_, by decide⟩
  · intro ps
    simp [convertParamsToNotepadStyle]
  · intro ps
    simp [convertParamsToNotepadStyle]
  · intro ps
    simp [convertParamsToNotepadStyle]

/-- Claim C10 counterexample: the input consisting of a quoted `a`
immediately followed by a quoted `b` contains two adjacent quote characters
outside any equals-quoted context, yet its token sequence `["a", "b"]`
contains no empty token, so the claim's "any input containing two adjacent
quote characters" is false. -/
theorem adjacent_quotes_no_empty_token :
    parseCommandLine "\x22a\x22\x22b\x22" = ["a", "b"] ∧
    "" ∉ parseCommandLine "\x22a\x22\x22b\x22" := by
  exact ⟨by decide, by decide⟩

/-- Claim C10 (amended): the tokenizer can emit empty-string tokens — the raw
string of exactly two quote characters (a filename-quote context opened and
immediately closed) yields the single empty token, which a subsequent
extraction operation observes as an ordinary token; but not every pair of
adjacent quotes outside an equals-quoted context does so. -/
theorem tokenizer_emits_empty_token :
    parseCommandLine "\x22\x22" = [""] ∧
    isInList "" (parseCommandLine "\x22\x22") = (true, []) := by
  exact ⟨by decide, by decide⟩

/-- Claim C5 counterexample: on the raw input `-z` followed by three spaces
and `a`, the scanner's `zArg` counter reaches the value 3 (each whitespace
character seen while the last pushed argument reads `-z` increments it), so
the counter is not confined to 0, 1, 2; moreover on `-z` + three spaces +
`a b` the counter passes through 2 yet the next token start does not enter
verbatim capture (the tokens split normally). -/
theorem zcounter_exceeds_two :
    3 ∈ (scanStates initState ("-z   a").data).map (fun st => st.zArg) ∧
    parseCommandLine "-z   a b" = ["-z", "a", "b"] := by
  exact ⟨by decide, by decide⟩

/-- Claim C5 (amended): the `zArg` counter never decreases and grows by at
most one per scanned character, but it is not bounded by 2; verbatim capture
fires exactly at a token start (a default character, outside both quoting
contexts, at a whitespace boundary) at which `zArg` is exactly 2 at that
moment, in which case the remainder of the raw input becomes the single final
token. -/
theorem zcounter_monotone_and_capture :
    (∀ st c, st.zArg ≤ (stepChar st c).zArg ∧ (stepChar st c).zArg ≤ st.zArg + 1) ∧
    (∀ cs (st : ScanState),
      List.Chain' (fun a b => a.zArg ≤ b.zArg) (scanStates st cs)) ∧
    (∀ st c rest, st.isBetweenFileNameQuotes = false → st.isStringInArg = false →
      st.isInWhiteSpace = true → st.zArg = 2 → c ≠ '\x22' → isWS c = false →
      scanAux st (c :: rest) =
        st.done ++ pendList st.pending ++ [String.mk (c :: rest)]) := by
  refine ⟨stepChar_zArg_mono, ?_, ?_⟩
  · intro cs
    induction cs with
    | nil =>
      intro st
      simp [scanStates]
    | cons c rest ih =>
      intro st
      by_cases hcap : captureCond st c = true
      · simp [scanStates, hcap]
      · have hcap' : captureCond st c = false := by simpa using hcap
        simp only [scanStates, hcap', Bool.false_eq_true, if_false]
        rw [List.chain'_cons']
        refine ⟨?_, ih (stepChar st c)⟩
        intro y hy
        rw [scanStates_head] at hy
        have hy2 : stepChar st c = y := by simpa using hy
        rw [← hy2]
        exact (stepChar_zArg_mono st c).1
  · intro st c rest hb hs hw hz hc hws
    exact scanAux_capture st c rest
      (by simp [captureCond, hb, hs, hw, hz, hws, beq_eq_false_iff_ne, hc])

theorem zcounter_monotone_and_capture_witness :
    scanAux (ScanState.mk [] none false false true none 2) ['a'] = ["a"] := by
  have h := zcounter_monotone_and_capture.2.2
    (ScanState.mk [] none false false true none 2) 'a' []
    rfl rfl rfl rfl (by decide) (by decide)
  simpa [pendList] using h

/-- Claim C3 counterexample: when the token X after `-z` is not
quote-delimited, no verbatim capture happens: `-z X Y Z` tokenizes to four
separate tokens, not to `X` followed by one final verbatim token `Y Z`.  The
step from `zArg = 1` to `zArg = 2` only happens when a quote opens the token
after `-z` (or on extra whitespace), so the claim fails for arbitrary X. -/
theorem minus_z_unquoted_no_capture :
    parseCommandLine "-z X Y Z" = ["-z", "X", "Y", "Z"] ∧
    parseCommandLine "-z X Y Z" ≠ ["-z", "X", "Y Z"] := by
  exact ⟨by decide, by decide⟩

/-- Claim C3 (amended): when the token X following `-z` is quote-delimited
(here the quoted token `X`), tokenization emits X as its own token and then
exactly one final token equal to the raw suffix of the input starting at the
next word Y, with all whitespace and quote characters of that suffix
preserved verbatim — stated for an arbitrary suffix beginning with a
non-whitespace, non-quote character. -/
theorem minus_z_quoted_capture (c : Char) (rest : List Char)
    (h1 : isWS c = false) (h2 : c ≠ '\x22') :
    parseCommandLine ("-z \x22X\x22 " ++ String.mk (c :: rest)) =
      ["-z", "X", String.mk (c :: rest)] := by
  have hd : ("-z \x22X\x22 " ++ String.mk (c :: rest)).data
      = '-' :: 'z' :: ' ' :: '\x22' :: 'X' :: '\x22' :: ' ' :: c :: rest := by
    rw [String.data_append]
    rfl
  unfold parseCommandLine
  rw [hd]
  rw [show scanAux initState
        ('-' :: 'z' :: ' ' :: '\x22' :: 'X' :: '\x22' :: ' ' :: c :: rest)
      = scanAux (ScanState.mk ["-z", "X"] none false false true none 2)
        (c :: rest) from rfl]
  rw [scanAux_capture _ _ _
    (by simp [captureCond, beq_eq_false_iff_ne, h2, h1])]
  simp [pendList]

theorem minus_z_quoted_capture_witness :
    parseCommandLine ("-z \x22X\x22 " ++ String.mk ('Y' :: ' ' :: 'Z' :: [])) =
      ["-z", "X", String.mk ('Y' :: ' ' :: 'Z' :: [])] :=
  minus_z_quoted_capture 'Y' (' ' :: 'Z' :: []) (by decide) (by decide)

/-- Claim C4 counterexample: the raw string `-z` + two spaces + `a b`
contains no quote character, yet its token sequence is not the
whitespace-run split: each whitespace processed while the last pushed token
reads `-z` increments `zArg`, so two consecutive spaces after `-z` reach 2
and the rest `a b` is captured as one verbatim token. -/
theorem no_quote_split_fails :
    parseCommandLine "-z  a b" = ["-z", "a b"] ∧
    wsSplit "-z  a b" = ["-z", "a", "b"] ∧
    parseCommandLine "-z  a b" ≠ wsSplit "-z  a b" := by
  exact ⟨by decide, by decide, by decide⟩

/-- Claim C4 (amended): for every raw command-line string containing no quote
character and whose whitespace split contains no token equal to `-z` (so the
`-z` verbatim-capture machinery stays inert), the token sequence produced by
the tokenizer equals the result of splitting the string on maximal runs of
space and tab, the empty input yielding the empty sequence. -/
theorem no_quote_tokenize_eq_split (cmd : String)
    (hq : ∀ c ∈ cmd.data, c ≠ '\x22') (hz : "-z" ∉ wsSplit cmd) :
    parseCommandLine cmd = wsSplit cmd := by
  have h := (scan_ws_split cmd.data).1 initState rfl rfl rfl rfl rfl hq
    (by simp [initState]) hz
  simpa [initState, parseCommandLine, wsSplit] using h

theorem no_quote_tokenize_eq_split_witness :
    (∀ c ∈ ("ab  cd " : String).data, c ≠ '\x22') ∧
    "-z" ∉ wsSplit "ab  cd " ∧
    parseCommandLine "ab  cd " = wsSplit "ab  cd " :=
  ⟨by decide, by decide, no_quote_tokenize_eq_split "ab  cd " (by decide) (by decide)⟩

/-! ## The scanner never stores quote characters outside the equals-quoted
context and the verbatim-capture token -/

theorem stepChar_done_mono (st : ScanState) (c : Char) :
    ∃ e, (stepChar st c).done = st.done ++ e := by
  simp only [stepChar]
  repeat' split
  all_goals first
    | exact ⟨pendList st.pending, rfl⟩
    | exact ⟨[], by simp⟩

theorem scanAux_done_prefix : ∀ (rest : List Char) (st : ScanState),
    ∃ l, scanAux st rest = st.done ++ l
  | [], st => ⟨pendList st.pending, rfl⟩
  | c :: rest, st => by
    by_cases hcap : captureCond st c = true
    · exact ⟨pendList st.pending ++ [String.mk (c :: rest)],
        by rw [scanAux_capture st c rest hcap, List.append_assoc]⟩
    · have hcap' : captureCond st c = false := by simpa using hcap
      obtain ⟨e, he⟩ := stepChar_done_mono st c
      obtain ⟨l, hl⟩ := scanAux_done_prefix rest (stepChar st c)
      exact ⟨e ++ l, by rw [scanAux_step st c rest hcap', hl, he, List.append_assoc]⟩

theorem last_done_ne (rest : List Char) (st' : ScanState)
    (hout : "-z" ∉ scanAux st' rest) : st'.done.getLast? ≠ some "-z" := by
  intro hlast
  obtain ⟨l, hl⟩ := scanAux_done_prefix rest st'
  exact hout (hl ▸ List.mem_append.mpr (Or.inl (List.mem_of_mem_getLast? hlast)))

theorem noEqQuote_none (c : Char) (l : List Char)
    (h : noEqQuote (some c) l = true) : noEqQuote none l = true := by
  cases l with
  | nil => rfl
  | cons c2 rest =>
    simp only [noEqQuote, Bool.and_eq_true] at h ⊢
    exact ⟨by simp, h.2⟩

theorem done_pend_no_quote (st : ScanState)
    (hdone : ∀ t ∈ st.done, ∀ ch ∈ t.data, ch ≠ '\x22')
    (hpend : ∀ p, st.pending = some p → ∀ ch ∈ p, ch ≠ '\x22') :
    ∀ t ∈ st.done ++ pendList st.pending, ∀ ch ∈ t.data, ch ≠ '\x22' := by
  intro t ht
  rcases List.mem_append.mp ht with h1 | h1
  · exact hdone t h1
  · cases hp : st.pending with
    | none => rw [hp] at h1; simp [pendList] at h1
    | some p =>
      rw [hp] at h1
      simp only [pendList, List.mem_singleton] at h1
      subst h1
      exact hpend p hp

theorem pend_extend_no_quote (st : ScanState) (c : Char) (hcq : c ≠ '\x22')
    (hpend : ∀ p, st.pending = some p → ∀ ch ∈ p, ch ≠ '\x22') :
    ∀ p, st.pending.map (fun p => p ++ [c]) = some p →
      ∀ ch ∈ p, ch ≠ '\x22' := by
  intro p hp ch hch
  cases hq : st.pending with
  | none => rw [hq] at hp; simp at hp
  | some q =>
    rw [hq] at hp
    have hp2 : q ++ [c] = p := by simpa using hp
    rw [← hp2] at hch
    rcases List.mem_append.mp hch with h1 | h1
    · exact hpend q hq ch h1
    · rw [List.mem_singleton] at h1
      rw [h1]
      exact hcq

theorem scan_no_quote : ∀ (rest : List Char) (st : ScanState),
    st.isStringInArg = false → st.zArg = 0 →
    noEqQuote st.prev rest = true →
    "-z" ∉ scanAux st rest →
    (∀ t ∈ st.done, ∀ ch ∈ t.data, ch ≠ '\x22') →
    (∀ p, st.pending = some p → ∀ ch ∈ p, ch ≠ '\x22') →
    ∀ t ∈ scanAux st rest, ∀ ch ∈ t.data, ch ≠ '\x22' := by
  intro rest
  induction rest with
  | nil =>
    intro st hs hz hne hout hdone hpend t ht
    exact done_pend_no_quote st hdone hpend t ht
  | cons c rest ih =>
    intro st hs hz hne hout hdone hpend
    have hcap : captureCond st c = false := by simp [captureCond, hz]
    rw [scanAux_step st c rest hcap] at hout ⊢
    simp only [noEqQuote, Bool.and_eq_true] at hne
    have hne2 : noEqQuote (some c) rest = true := hne.2
    by_cases hcq : c = '\x22'
    · have hprev : st.prev ≠ some '=' := by
        have h1 := hne.1
        rw [hcq] at h1
        simpa using h1
      by_cases hbq : st.isBetweenFileNameQuotes = true
      · -- close the quoted filename (line 133): the quote is zapped
        have hst : stepChar st c =
            { st with done := st.done ++ pendList st.pending, pending := none, isBetweenFileNameQuotes := false, isInWhiteSpace := false, prev := none } := by
          simp [stepChar, hcq, hs, hbq, hprev]
        rw [hst] at hout ⊢
        exact ih _ (by simp [hs]) (by simp [hz])
          (by simpa using noEqQuote_none c rest hne2) hout
          (by simpa using done_pend_no_quote st hdone hpend) (by simp)
      · -- open a quoted filename (line 122): the quote is zapped
        have hbq' : st.isBetweenFileNameQuotes = false := by simpa using hbq
        have hst : stepChar st c =
            { st with done := st.done ++ pendList st.pending, pending := some [], isBetweenFileNameQuotes := true, zArg := st.zArg, isInWhiteSpace := false, prev := none } := by
          simp [stepChar, hcq, hs, hbq', hprev, hz]
        rw [hst] at hout ⊢
        exact ih _ (by simp [hs]) (by simp [hz])
          (by simpa using noEqQuote_none c rest hne2) hout
          (by simpa using done_pend_no_quote st hdone hpend)
          (by intro p hp
              simp only [Option.some.injEq] at hp
              subst hp
              simp)
    · by_cases hws : isWS c = true
      · by_cases hctx : (!st.isBetweenFileNameQuotes && !st.isStringInArg) = true
        · -- whitespace zapped (line 149)
          have hdoneq : (stepChar st c).done = st.done ++ pendList st.pending := by
            simp only [stepChar, if_neg hcq, hws, if_pos rfl, hctx]
            simp
          have hnz : (st.done ++ pendList st.pending).getLast? ≠ some "-z" := by
            rw [← hdoneq]
            exact last_done_ne rest (stepChar st c) hout
          have hst : stepChar st c =
              { st with done := st.done ++ pendList st.pending, pending := none, isInWhiteSpace := true, prev := none } := by
            cases hpq : st.pending with
            | none =>
              rw [hpq] at hnz
              simp only [pendList, List.append_nil] at hnz
              simp [stepChar, hcq, hws, hctx, hpq, pendList, hnz]
            | some p =>
              rw [hpq] at hnz
              simp only [pendList, List.getLast?_concat, ne_eq,
                Option.some.injEq] at hnz
              simp [stepChar, hcq, hws, hctx, hpq, pendList,
                List.getLast?_concat, hnz]
          rw [hst] at hout ⊢
          exact ih _ (by simp [hs]) (by simp [hz])
            (by simpa using noEqQuote_none c rest hne2) hout
            (by simpa using done_pend_no_quote st hdone hpend) (by simp)
        · -- whitespace kept inside a quoting context
          have hst : stepChar st c =
              { st with isInWhiteSpace := true, pending := st.pending.map (fun p => p ++ [c]), prev := some c } := by
            simp [stepChar, hcq, hws, hctx]
          rw [hst] at hout ⊢
          exact ih _ (by simp [hs]) (by simp [hz]) (by simpa using hne2) hout
            (by simpa using hdone)
            (by simpa using pend_extend_no_quote st c hcq hpend)
      · by_cases hpush :
          (!st.isBetweenFileNameQuotes && !st.isStringInArg && st.isInWhiteSpace) = true
        · -- beginning of a word (line 160)
          have hst : stepChar st c =
              { st with done := st.done ++ pendList st.pending, pending := some [c], isInWhiteSpace := false, prev := some c } := by
            simp [stepChar, hcq, hws, hpush]
          rw [hst] at hout ⊢
          refine ih _ (by simp [hs]) (by simp [hz]) (by simpa using hne2) hout
            (by simpa using done_pend_no_quote st hdone hpend) ?_
          intro p hp
          simp only [Option.some.injEq] at hp
          rw [← hp]
          intro ch hch
          rw [List.mem_singleton] at hch
          rw [hch]
          exact hcq
        · -- character inside the current extent
          have hst : stepChar st c =
              { st with pending := st.pending.map (fun p => p ++ [c]), prev := some c } := by
            simp [stepChar, hcq, hws, hpush]
          rw [hst] at hout ⊢
          exact ih _ (by simp [hs]) (by simp [hz]) (by simpa using hne2) hout
            (by simpa using hdone)
            (by simpa using pend_extend_no_quote st c hcq hpend)

/-- Claim C1 counterexample: the quotes opening and closing the
equals-quoted-string context are not elided — the token produced for
`-a="b c"` is `-a="b c"` with both quote characters kept as content (the
scanner toggles `isStringInArg` without zapping those quotes, winmain.cpp
lines 114-121). -/
theorem equals_quoted_keeps_quotes :
    parseCommandLine "-a=\x22b c\x22" = ["-a=\x22b c\x22"] ∧
    '\x22' ∈ ("-a=\x22b c\x22" : String).data := by
  exact ⟨by decide, by decide⟩

/-- Claim C1 (amended): quotes delimiting the bare filename-quote context are
structural and elided, so for every raw command-line string in which no quote
character immediately follows an equals sign (the equals-quoted context is
never entered) and whose token sequence contains no `-z` token (verbatim
capture is never entered), no emitted token contains a quote character.
Quotes of an equals-quoted region and quotes inside a verbatim-capture token
are preserved as token content, contrary to the original claim. -/
theorem tokens_quote_free (cmd : String)
    (h1 : noEqQuote none cmd.data = true)
    (h2 : "-z" ∉ parseCommandLine cmd) :
    ∀ t ∈ parseCommandLine cmd, ∀ ch ∈ t.data, ch ≠ '\x22' :=
  scan_no_quote cmd.data initState rfl rfl h1 h2
    (by simp [initState]) (by simp [initState])

theorem tokens_quote_free_witness :
    noEqQuote none ("ab \x22c d\x22" : String).data = true ∧
    "-z" ∉ parseCommandLine "ab \x22c d\x22" ∧
    ∀ t ∈ parseCommandLine "ab \x22c d\x22", ∀ ch ∈ t.data, ch ≠ '\x22' :=
  ⟨by decide, by decide,
    tokens_quote_free "ab \x22c d\x22" (by decide) (by decide)⟩

end Npp
